import Mathlib

set_option maxRecDepth 100000

/-! Shallow embedding of the in-memory pub/sub broker (src/manager.py,
src/models.py, src/main.py).  Python dicts are modelled as insertion-ordered
association lists, Python sets of strings as duplicate-free lists, the
bounded deque as a list with capped append, and a websocket connection as a
record carrying its `client_state` together with a flag saying whether a
send on it succeeds or raises. -/

/-- Connection state of a websocket, mirroring starlette's WebSocketState. -/
inductive WSState where
  | connected
  | connecting
  | disconnected
deriving DecidableEq, Repr

/-- Abstract connection handle: its observable state and whether a
send_json on it succeeds (`sendOk = false` models a send that raises). -/
structure WebSocket where
  client_state : WSState
  sendOk : Bool
deriving DecidableEq, Repr

/-- models.MessagePayload: an id (UUID modelled as Nat) and an opaque
key/value payload. The broker treats the whole value opaquely. -/
structure MessagePayload where
  id : Nat
  payload : List (String × String)
deriving DecidableEq, Repr

/-- models.ServerEventMessage without the timestamp field (wall-clock time
is outside the model): topic plus the carried payload. -/
structure ServerEventMessage where
  topic : String
  message : MessagePayload
deriving DecidableEq, Repr

/-- models.ServerInfoMessage without the timestamp field. -/
structure ServerInfoMessage where
  topic : String
  msg : String
deriving DecidableEq, Repr

/-- models.ErrorPayload. -/
structure ErrorPayload where
  code : String
  message : String
deriving DecidableEq, Repr

/-- Lookup in an insertion-ordered association list (Python `d[k]` / `k in d`). -/
def lookupKey {α : Type} (k : String) : List (String × α) → Option α
  | [] => none
  | (k', v) :: rest => if k = k' then some v else lookupKey k rest

/-- Python dict assignment `d[k] = v`: update the entry in place if the key
is present, else append a new entry at the end. -/
def insertKey {α : Type} : List (String × α) → String → α → List (String × α)
  | [], k, v => [(k, v)]
  | (k', v') :: rest, k, v =>
      if k = k' then (k, v) :: rest else (k', v') :: insertKey rest k v

/-- Python `del d[k]` (and `d.pop(k, None)`): drop the first entry with the
given key, no change when absent. -/
def eraseKey {α : Type} : List (String × α) → String → List (String × α)
  | [], _ => []
  | (k', v') :: rest, k =>
      if k = k' then rest else (k', v') :: eraseKey rest k

/-- Apply a function to the value stored under a key, in place; no change
when the key is absent. -/
def adjustKey {α : Type} : List (String × α) → String → (α → α) → List (String × α)
  | [], _, _ => []
  | (k', v') :: rest, k, f =>
      if k = k' then (k, f v') :: rest else (k', v') :: adjustKey rest k f

/-- Python `s.add(x)` on a set modelled as a duplicate-free list. -/
def setAdd (ss : List String) (x : String) : List String :=
  if x ∈ ss then ss else ss ++ [x]

/-- manager.Topic: name, subscribers (client_id to connection), bounded
message history (deque with maxlen 100) and the monotonic message counter. -/
structure Topic where
  name : String
  subscribers : List (String × WebSocket)
  message_history : List MessagePayload
  message_count : Nat
deriving DecidableEq, Repr

/-- Append on a collections.deque with maxlen 100: when the deque is at
capacity the oldest (leftmost) entry is evicted. -/
def appendCap (h : List MessagePayload) (p : MessagePayload) : List MessagePayload :=
  if h.length < 100 then h ++ [p] else h.drop 1 ++ [p]

/-- Result of the fan-out loop in Topic.broadcast: either the loop ran to
completion (collecting the sends made and the client ids found not
connected), or a send raised part-way (the sends already made are kept; the
exception propagates, so the clean-up of disconnected clients never runs). -/
inductive BCRes where
  | done (sent : List (String × ServerEventMessage)) (disconnected : List String)
  | failed (sent : List (String × ServerEventMessage))
deriving DecidableEq, Repr

/-- The body of Topic.broadcast's loop over `list(self.subscribers.items())`:
a connected subscriber is sent the event (raising when the send fails), a
non-connected one is recorded for removal. -/
def bcLoop (ev : ServerEventMessage) : List (String × WebSocket) → BCRes
  | [] => .done [] []
  | (cid, ws) :: rest =>
      if ws.client_state = WSState.connected then
        if ws.sendOk then
          match bcLoop ev rest with
          | .done s d => .done ((cid, ev) :: s) d
          | .failed s => .failed ((cid, ev) :: s)
        else .failed []
      else
        match bcLoop ev rest with
        | .done s d => .done s (cid :: d)
        | .failed s => .failed s

/-- Result of Topic.broadcast: the updated topic and sends on completion,
or the partial sends when a send raised (subscribers left untouched). -/
inductive BroadcastResult where
  | ok (t : Topic) (sent : List (String × ServerEventMessage))
  | failed (sent : List (String × ServerEventMessage))
deriving DecidableEq, Repr

/-- manager.Topic.broadcast: iterate over the subscribers, send to the
connected ones, then delete every client found not connected. A raising
send aborts before any deletion happens. -/
def Topic.broadcast (t : Topic) (ev : ServerEventMessage) : BroadcastResult :=
  match bcLoop ev t.subscribers with
  | .done sent disc =>
      .ok { t with subscribers := disc.foldl (fun s c => eraseKey s c) t.subscribers } sent
  | .failed sent => .failed sent

/-- manager.PubSubManager's state: the topic registry and the inverse
subscription index (client_id to set of topic names). -/
structure PubSubManager where
  topics : List (String × Topic)
  clients : List (String × List String)
deriving DecidableEq, Repr

/-- The broker's initial state: no topics, no clients. -/
def PubSubManager.initial : PubSubManager := ⟨[], []⟩

/-- manager.PubSubManager.create_topic: none models the 409 on a duplicate
name; otherwise a fresh empty topic is registered. -/
def PubSubManager.create_topic (m : PubSubManager) (nm : String) : Option PubSubManager :=
  match lookupKey nm m.topics with
  | some _ => none
  | none => some { m with topics := m.topics ++ [(nm, ⟨nm, [], [], 0⟩)] }

/-- Python `self._clients[client_id].discard(name)` followed by purging the
entry when it became empty (the clean-up step shared by unsubscribe and
delete_topic). -/
def cleanClient (cs : List (String × List String)) (cid nm : String) :
    List (String × List String) :=
  match lookupKey cid cs with
  | none => cs
  | some ss =>
      let ss' := ss.erase nm
      if ss' = [] then eraseKey cs cid else adjustKey cs cid (fun _ => ss')

/-- Python: create `self._clients[client_id]` as an empty set when missing,
then add the topic name (the index update done by subscribe). -/
def clientsAddTopic (cs : List (String × List String)) (cid nm : String) :
    List (String × List String) :=
  match lookupKey cid cs with
  | none => cs ++ [(cid, [nm])]
  | some ss => adjustKey cs cid (fun _ => setAdd ss nm)

/-- Result of delete_topic's loop over the subscribers: the threaded client
index and the (client, info frame, close code) notifications, with a failed
variant for a send that raised part-way. -/
inductive DLRes where
  | done (clients : List (String × List String))
      (notified : List (String × ServerInfoMessage × Nat))
  | failed (clients : List (String × List String))
      (notified : List (String × ServerInfoMessage × Nat))
deriving DecidableEq, Repr

/-- The body of delete_topic's loop: a connected subscriber is sent the
info frame then closed with code 1000 (the send may raise, aborting the
loop before this client's index entry is cleaned); every processed
subscriber then has the topic name removed from its index entry. -/
def dlLoop (nm : String) (info : ServerInfoMessage) :
    List (String × WebSocket) → List (String × List String) → DLRes
  | [], cs => .done cs []
  | (cid, ws) :: rest, cs =>
      if ws.client_state = WSState.connected then
        if ws.sendOk then
          match dlLoop nm info rest (cleanClient cs cid nm) with
          | .done cs' nts => .done cs' ((cid, info, 1000) :: nts)
          | .failed cs' nts => .failed cs' ((cid, info, 1000) :: nts)
        else .failed cs []
      else
        match dlLoop nm info rest (cleanClient cs cid nm) with
        | .done cs' nts => .done cs' nts
        | .failed cs' nts => .failed cs' nts

/-- Result of delete_topic: not found, normal completion, or a raising
send part-way through the notification loop (the topic is then NOT removed
from the registry and only the already-processed index entries are clean). -/
inductive DeleteResult where
  | notFound
  | ok (m : PubSubManager) (notified : List (String × ServerInfoMessage × Nat))
  | sendFailed (m : PubSubManager) (notified : List (String × ServerInfoMessage × Nat))
deriving DecidableEq, Repr

/-- manager.PubSubManager.delete_topic. -/
def PubSubManager.delete_topic (m : PubSubManager) (nm : String) : DeleteResult :=
  match lookupKey nm m.topics with
  | none => .notFound
  | some t =>
      let info : ServerInfoMessage := ⟨nm, "topic_deleted"⟩
      match dlLoop nm info t.subscribers m.clients with
      | .done cs nts => .ok ⟨eraseKey m.topics nm, cs⟩ nts
      | .failed cs nts => .sendFailed ⟨m.topics, cs⟩ nts

/-- Result of subscribe: topic not found; typeError models the uncaught
TypeError raised by `last_n > 0` when last_n is None (state already
mutated); sendFailed models a replay send that raised (state already
mutated, no event delivered); ok carries the new state and the replayed
events in the order they were sent. -/
inductive SubscribeResult where
  | notFound
  | typeError (m : PubSubManager)
  | sendFailed (m : PubSubManager) (sent : List ServerEventMessage)
  | ok (m : PubSubManager) (sent : List ServerEventMessage)
deriving DecidableEq, Repr

/-- Python `history[-k:]` for k > 0: the most recent min(k, length) entries
in historical order. -/
def replayHist (hist : List MessagePayload) (k : Nat) : List MessagePayload :=
  hist.drop (hist.length - k)

/-- manager.PubSubManager.subscribe. The subscriber handle is installed and
the index updated before last_n is inspected; `last_n = none` models an
explicit null, on which the comparison `last_n > 0` raises TypeError. -/
def PubSubManager.subscribe (m : PubSubManager) (nm cid : String) (ws : WebSocket)
    (last_n : Option Int) : SubscribeResult :=
  match lookupKey nm m.topics with
  | none => .notFound
  | some t =>
      let t' := { t with subscribers := insertKey t.subscribers cid ws }
      let m1 : PubSubManager :=
        ⟨adjustKey m.topics nm (fun _ => t'), clientsAddTopic m.clients cid nm⟩
      match last_n with
      | none => .typeError m1
      | some k =>
          if 0 < k then
            let evs := (replayHist t.message_history k.toNat).map
              (fun p => ({ topic := nm, message := p } : ServerEventMessage))
            if evs.isEmpty || ws.sendOk then .ok m1 evs else .sendFailed m1 []
          else .ok m1 []

/-- manager.PubSubManager.unsubscribe: none models TOPIC_NOT_FOUND;
otherwise the subscriber entry (when present) is removed and the index
entry cleaned, purging it when empty. -/
def PubSubManager.unsubscribe (m : PubSubManager) (nm cid : String) :
    Option PubSubManager :=
  match lookupKey nm m.topics with
  | none => none
  | some t =>
      let t' := { t with subscribers := eraseKey t.subscribers cid }
      some ⟨adjustKey m.topics nm (fun _ => t'), cleanClient m.clients cid nm⟩

/-- Result of publish: not found (state untouched), normal completion, or
a raising send during the fan-out. In the failed case the history append
and counter increment have already happened but no subscriber was purged. -/
inductive PublishResult where
  | notFound
  | ok (m : PubSubManager) (sent : List (String × ServerEventMessage))
  | sendFailed (m : PubSubManager) (sent : List (String × ServerEventMessage))
deriving DecidableEq, Repr

/-- manager.PubSubManager.publish: append to the bounded history, bump the
counter, then broadcast the event to the topic's subscribers. -/
def PubSubManager.publish (m : PubSubManager) (nm : String) (p : MessagePayload) :
    PublishResult :=
  match lookupKey nm m.topics with
  | none => .notFound
  | some t =>
      let t1 := { t with
        message_history := appendCap t.message_history p,
        message_count := t.message_count + 1 }
      let ev : ServerEventMessage := ⟨nm, p⟩
      match t1.broadcast ev with
      | .ok t2 sent => .ok ⟨adjustKey m.topics nm (fun _ => t2), m.clients⟩ sent
      | .failed sent => .sendFailed ⟨adjustKey m.topics nm (fun _ => t1), m.clients⟩ sent

/-- manager.PubSubManager.disconnect_client: remove the client from every
topic named in its index entry (tolerating deleted topics), then drop the
index entry; a no-op for an unknown client. -/
def PubSubManager.disconnect_client (m : PubSubManager) (cid : String) : PubSubManager :=
  match lookupKey cid m.clients with
  | none => m
  | some ss =>
      ⟨ss.foldl (fun ts nm =>
          adjustKey ts nm (fun t => { t with subscribers := eraseKey t.subscribers cid }))
        m.topics,
       eraseKey m.clients cid⟩

/-! Session-level model (src/main.py websocket_endpoint): the dispatch on
the frame's type field and the two exception handlers of the inner loop. -/

/-- Python exceptions relevant to the session loop. In pydantic v1,
ValidationError is a subclass of ValueError; the session's handlers are
tried in order (ValidationError first), so the three cases below cover the
dispatch. TypeError matches neither handler. -/
inductive PyExc where
  | validationError (txt : String)
  | valueError (txt : String)
  | typeError (txt : String)
deriving DecidableEq, Repr

/-- The dispatch on `data.get("type")` in websocket_endpoint: the four
known values are handled; any other value (including a missing field,
where get returns None) falls into the else branch, which raises
`ValueError("Unsupported message type")`. -/
def dispatchRaise (msgType : Option String) : Option PyExc :=
  if msgType = some "subscribe" then none
  else if msgType = some "unsubscribe" then none
  else if msgType = some "publish" then none
  else if msgType = some "ping" then none
  else some (PyExc.valueError "Unsupported message type")

/-- The inner try/except of websocket_endpoint: a ValidationError yields
ErrorPayload(code="BAD_REQUEST", message=str(e)); a ValueError yields
ErrorPayload(code=str(e), message="Operation failed"); any other exception
is uncaught and propagates out of the loop (modelled as none). -/
def sessionCatch : PyExc → Option ErrorPayload
  | .validationError txt => some ⟨"BAD_REQUEST", txt⟩
  | .valueError txt => some ⟨txt, "Operation failed"⟩
  | .typeError _ => none

/-- The JSON value found at a frame's last_n field: absent, an explicit
null, or an integer. -/
inductive FieldVal where
  | missing
  | null
  | intVal (n : Int)
deriving DecidableEq, Repr

/-- Pydantic validation of ClientSubscribeMessage's field
`last_n: Optional[int] = Field(0, ge=0)`: a missing field takes the
default 0, an explicit null is accepted as None (the ge constraint is not
applied to None), and an integer must be nonnegative. -/
def validateLastN : FieldVal → Except String (Option Int)
  | .missing => .ok (some 0)
  | .null => .ok none
  | .intVal n =>
      if 0 ≤ n then .ok (some n)
      else .error "ensure this value is greater than or equal to 0"

/-! Scenario helpers and concrete states used to exercise the model. -/

/-- Run a sequence of publishes on one topic, threading the state through
whichever outcome each publish produced. -/
def publishSeq (m : PubSubManager) (nm : String) : List MessagePayload → PubSubManager
  | [] => m
  | p :: ps =>
      match m.publish nm p with
      | .ok m' _ => publishSeq m' nm ps
      | .sendFailed m' _ => publishSeq m' nm ps
      | .notFound => publishSeq m nm ps

/-- A payload with a given id and empty body. -/
def mkPayload (i : Nat) : MessagePayload := ⟨i, []⟩

/-- A healthy connected websocket. -/
def wsLive : WebSocket := ⟨WSState.connected, true⟩

/-- A websocket whose connection has gone away (not in connected state). -/
def wsDead : WebSocket := ⟨WSState.disconnected, true⟩

/-- A websocket still reported as connected but whose sends raise. -/
def wsBroken : WebSocket := ⟨WSState.connected, false⟩

/-- State after create_topic "t" on the initial state. -/
def mCreated : PubSubManager := ⟨[("t", ⟨"t", [], [], 0⟩)], []⟩

/-- State after client "c" subscribed to "t" on a connection that is no
longer in connected state. -/
def mSubDead : PubSubManager :=
  ⟨[("t", ⟨"t", [("c", wsDead)], [], 0⟩)], [("c", ["t"])]⟩

/-- State after a publish on "t" purged the dead subscriber "c" from the
subscribers map: the index entry for "c" still names "t". -/
def mStale : PubSubManager :=
  ⟨[("t", ⟨"t", [], [mkPayload 0], 1⟩)], [("c", ["t"])]⟩

/-- State after delete_topic "t" on the stale state: the registry is empty
but the index entry for "c" still names "t". -/
def mAfterDelete : PubSubManager := ⟨[], [("c", ["t"])]⟩

/-- A topic with a send-raising connected subscriber ahead of a healthy
one, used to exhibit the unhandled send failure during fan-out. -/
def mBroken : PubSubManager :=
  ⟨[("t", ⟨"t", [("a", wsBroken), ("b", wsLive)], [], 0⟩)],
   [("a", ["t"]), ("b", ["t"])]⟩

/-- A topic holding three history entries, used to exercise replay. -/
def mHist : PubSubManager :=
  ⟨[("t", ⟨"t", [], [mkPayload 0, mkPayload 1, mkPayload 2], 3⟩)], []⟩

/-- Subscriber count of a topic, 0 when the topic is absent. -/
def subCount (m : PubSubManager) (nm : String) : Nat :=
  match lookupKey nm m.topics with
  | none => 0
  | some t => t.subscribers.length

/-- A state in which client "c" is already a subscriber of topic "t". -/
def mResub : PubSubManager :=
  ⟨[("t", ⟨"t", [("c", wsLive)], [], 0⟩)], [("c", ["t"])]⟩

/-- The state after unsubscribing "c" from "t" in mResub. -/
def mResubAfter : PubSubManager := ⟨[("t", ⟨"t", [], [], 0⟩)], []⟩

/-- Well-formedness invariant maintained by normally-completing broker
operations: registry keys are duplicate-free, and every registered topic
has duplicate-free subscriber keys, a history within the capacity bound,
and every subscriber recorded in the SubscriptionIndex under the topic's
name. -/
def GoodState (m : PubSubManager) : Prop :=
  (m.topics.map Prod.fst).Nodup ∧
  ∀ nm t, lookupKey nm m.topics = some t →
    (t.subscribers.map Prod.fst).Nodup ∧
    t.message_history.length ≤ 100 ∧
    ∀ q ∈ t.subscribers, ∃ ss, lookupKey q.1 m.clients = some ss ∧ nm ∈ ss

/-- State after the publish on mBroken raised during fan-out: history and
counter were already mutated, the subscribers map is untouched. -/
def mBrokenAfter : PubSubManager :=
  ⟨[("t", ⟨"t", [("a", wsBroken), ("b", wsLive)], [mkPayload 0], 1⟩)],
   [("a", ["t"]), ("b", ["t"])]⟩

/-! Reachability: the broker operations as a step relation. Only normally
completing operations are included; an operation aborted by a raising send
or an uncaught TypeError leaves the broker mid-operation and is treated
separately by the theorems that are about those paths. -/

/-- One normally-completing broker operation. -/
inductive Step : PubSubManager → PubSubManager → Prop
  | create_ok (m : PubSubManager) (nm : String) (m' : PubSubManager) :
      m.create_topic nm = some m' → Step m m'
  | delete_ok (m : PubSubManager) (nm : String) (m' : PubSubManager)
      (nts : List (String × ServerInfoMessage × Nat)) :
      m.delete_topic nm = DeleteResult.ok m' nts → Step m m'
  | subscribe_ok (m : PubSubManager) (nm cid : String) (ws : WebSocket)
      (ln : Option Int) (m' : PubSubManager) (evs : List ServerEventMessage) :
      m.subscribe nm cid ws ln = SubscribeResult.ok m' evs → Step m m'
  | unsubscribe_ok (m : PubSubManager) (nm cid : String) (m' : PubSubManager) :
      m.unsubscribe nm cid = some m' → Step m m'
  | publish_ok (m : PubSubManager) (nm : String) (p : MessagePayload)
      (m' : PubSubManager) (sent : List (String × ServerEventMessage)) :
      m.publish nm p = PublishResult.ok m' sent → Step m m'
  | disconnect (m : PubSubManager) (cid : String) : Step m (m.disconnect_client cid)

/-- States reachable from the empty broker by normally-completing
operations. -/
inductive Reachable : PubSubManager → Prop
  | init : Reachable PubSubManager.initial
  | step {m m' : PubSubManager} : Reachable m → Step m m' → Reachable m'

/-! Helper lemmas about the association-list operations. -/

theorem lookupKey_eq_none {α : Type} (k : String) (l : List (String × α)) :
    lookupKey k l = none ↔ k ∉ l.map Prod.fst := by
  induction l with
  | nil => simp [lookupKey]
  | cons p rest ih =>
      obtain ⟨k', v⟩ := p
      by_cases h : k = k' <;> simp [lookupKey, h, ih]

theorem mem_of_lookupKey {α : Type} {k : String} {l : List (String × α)} {v : α}
    (h : lookupKey k l = some v) : (k, v) ∈ l := by
  induction l with
  | nil => simp [lookupKey] at h
  | cons p rest ih =>
      obtain ⟨k', v'⟩ := p
      by_cases hk : k = k'
      · subst hk
        simp [lookupKey] at h
        subst h
        exact List.mem_cons_self _ _
      · simp [lookupKey, hk] at h
        exact List.mem_cons_of_mem _ (ih h)

theorem lookupKey_of_mem_nodup {α : Type} {k : String} {l : List (String × α)} {v : α}
    (hnd : (l.map Prod.fst).Nodup) (h : (k, v) ∈ l) : lookupKey k l = some v := by
  induction l with
  | nil => simp at h
  | cons p rest ih =>
      obtain ⟨k', v'⟩ := p
      have hnd2 : (k' :: List.map Prod.fst rest).Nodup := by simpa using hnd
      have hnd' := List.nodup_cons.mp hnd2
      rcases List.mem_cons.mp h with heq | hmem
      · cases heq
        simp [lookupKey]
      · have hk : k ≠ k' := by
          intro hkk
          subst hkk
          exact hnd'.1 (List.mem_map.mpr ⟨(k, v), hmem, rfl⟩)
        simp [lookupKey, hk, ih hnd'.2 hmem]

theorem lookupKey_adjustKey_self {α : Type} {k : String} {l : List (String × α)} {v : α}
    (f : α → α) (h : lookupKey k l = some v) :
    lookupKey k (adjustKey l k f) = some (f v) := by
  induction l with
  | nil => simp [lookupKey] at h
  | cons p rest ih =>
      obtain ⟨k', v'⟩ := p
      by_cases hk : k = k'
      · subst hk
        simp [lookupKey] at h
        subst h
        simp [adjustKey, lookupKey]
      · simp [lookupKey, hk] at h
        simp [adjustKey, lookupKey, hk, ih h]

theorem lookupKey_adjustKey_ne {α : Type} {d k : String} (l : List (String × α))
    (f : α → α) (h : d ≠ k) :
    lookupKey d (adjustKey l k f) = lookupKey d l := by
  induction l with
  | nil => simp [adjustKey]
  | cons p rest ih =>
      obtain ⟨k', v'⟩ := p
      by_cases hk : k = k'
      · subst hk
        simp [adjustKey, lookupKey, h]
      · by_cases hd : d = k' <;> simp [adjustKey, lookupKey, hk, hd, ih]

theorem adjustKey_map_fst {α : Type} (l : List (String × α)) (k : String) (f : α → α) :
    (adjustKey l k f).map Prod.fst = l.map Prod.fst := by
  induction l with
  | nil => simp [adjustKey]
  | cons p rest ih =>
      obtain ⟨k', v'⟩ := p
      by_cases hk : k = k' <;> simp [adjustKey, hk, ih]

theorem mem_adjustKey {α : Type} {p : String × α} {l : List (String × α)}
    {k : String} {f : α → α} (h : p ∈ adjustKey l k f) :
    p ∈ l ∨ ∃ v, lookupKey k l = some v ∧ p = (k, f v) := by
  induction l with
  | nil => simp [adjustKey] at h
  | cons q rest ih =>
      obtain ⟨k', v'⟩ := q
      by_cases hk : k = k'
      · subst hk
        simp [adjustKey] at h
        rcases h with h | h
        · exact Or.inr ⟨v', by simp [lookupKey], h⟩
        · exact Or.inl (List.mem_cons_of_mem _ h)
      · simp [adjustKey, hk] at h
        rcases h with h | h
        · exact Or.inl (by simp [h])
        · rcases ih h with h' | ⟨v, hv, hp⟩
          · exact Or.inl (List.mem_cons_of_mem _ h')
          · exact Or.inr ⟨v, by simp [lookupKey, hk, hv], hp⟩

theorem lookupKey_eraseKey_ne {α : Type} {d k : String} (l : List (String × α))
    (h : d ≠ k) : lookupKey d (eraseKey l k) = lookupKey d l := by
  induction l with
  | nil => simp [eraseKey]
  | cons p rest ih =>
      obtain ⟨k', v'⟩ := p
      by_cases hk : k = k'
      · subst hk
        simp [eraseKey, lookupKey, h]
      · by_cases hd : d = k' <;> simp [eraseKey, lookupKey, hk, hd, ih]

theorem eraseKey_sublist {α : Type} (l : List (String × α)) (k : String) :
    (eraseKey l k).Sublist l := by
  induction l with
  | nil => simp [eraseKey]
  | cons p rest ih =>
      obtain ⟨k', v'⟩ := p
      by_cases hk : k = k'
      · simp [eraseKey, hk]
      · simp only [eraseKey, if_neg hk]
        exact List.Sublist.cons₂ _ ih

theorem lookupKey_eraseKey_self {α : Type} {l : List (String × α)} {k : String}
    (hnd : (l.map Prod.fst).Nodup) : lookupKey k (eraseKey l k) = none := by
  induction l with
  | nil => simp [eraseKey, lookupKey]
  | cons p rest ih =>
      obtain ⟨k', v'⟩ := p
      have hnd2 : (k' :: List.map Prod.fst rest).Nodup := by simpa using hnd
      have hnd' := List.nodup_cons.mp hnd2
      by_cases hk : k = k'
      · subst hk
        simp only [eraseKey, if_pos rfl]
        exact (lookupKey_eq_none _ _).mpr hnd'.1
      · simp [eraseKey, hk, lookupKey, ih hnd'.2]

theorem mem_insertKey {α : Type} {p : String × α} {l : List (String × α)}
    {k : String} {v : α} (h : p ∈ insertKey l k v) : p ∈ l ∨ p = (k, v) := by
  induction l with
  | nil => simp [insertKey] at h; exact Or.inr h
  | cons q rest ih =>
      obtain ⟨k', v'⟩ := q
      by_cases hk : k = k'
      · subst hk
        simp [insertKey] at h
        rcases h with h | h
        · exact Or.inr (by simp [h])
        · exact Or.inl (List.mem_cons_of_mem _ h)
      · simp [insertKey, hk] at h
        rcases h with h | h
        · exact Or.inl (by simp [h])
        · rcases ih h with h' | h'
          · exact Or.inl (List.mem_cons_of_mem _ h')
          · exact Or.inr h'

theorem insertKey_of_not_mem {α : Type} {l : List (String × α)} {k : String}
    (v : α) (h : k ∉ l.map Prod.fst) : insertKey l k v = l ++ [(k, v)] := by
  induction l with
  | nil => simp [insertKey]
  | cons p rest ih =>
      obtain ⟨k', v'⟩ := p
      simp at h
      have hk : k ≠ k' := fun hkk => (h.1 (by simp [hkk])).elim
      simp [insertKey, hk, ih (by simpa using h.2)]

theorem eraseKey_append_single {α : Type} {l : List (String × α)} {k : String}
    (v : α) (h : k ∉ l.map Prod.fst) : eraseKey (l ++ [(k, v)]) k = l := by
  induction l with
  | nil => simp [eraseKey]
  | cons p rest ih =>
      obtain ⟨k', v'⟩ := p
      simp at h
      have hk : k ≠ k' := fun hkk => (h.1 (by simp [hkk])).elim
      simp [eraseKey, hk, ih (by simpa using h.2)]

theorem lookupKey_append {α : Type} (k : String) (l₁ l₂ : List (String × α)) :
    lookupKey k (l₁ ++ l₂) =
      (match lookupKey k l₁ with
       | some v => some v
       | none => lookupKey k l₂) := by
  induction l₁ with
  | nil => simp [lookupKey]
  | cons p rest ih =>
      obtain ⟨k', v'⟩ := p
      by_cases hk : k = k' <;> simp [lookupKey, hk, ih]

theorem mem_setAdd_self (ss : List String) (x : String) : x ∈ setAdd ss x := by
  by_cases h : x ∈ ss <;> simp [setAdd, h]

theorem mem_setAdd_of_mem {ss : List String} {y : String} (x : String)
    (h : y ∈ ss) : y ∈ setAdd ss x := by
  by_cases hx : x ∈ ss <;> simp [setAdd, hx, h]

/-! Characterization of the fan-out loop when no send raises. -/

theorem bcLoop_done_of_sendOk (ev : ServerEventMessage) :
    ∀ l : List (String × WebSocket),
      (∀ p ∈ l, p.2.client_state = WSState.connected → p.2.sendOk = true) →
      bcLoop ev l =
        BCRes.done
          ((l.filter fun p => p.2.client_state == WSState.connected).map fun p => (p.1, ev))
          ((l.filter fun p => !(p.2.client_state == WSState.connected)).map Prod.fst)
  | [], _ => rfl
  | (cid, ws) :: rest, h => by
      have hrest := fun q hq => h q (List.mem_cons_of_mem _ hq)
      by_cases hc : ws.client_state = WSState.connected
      · have hs : ws.sendOk = true := h (cid, ws) (List.mem_cons_self _ _) hc
        simp [bcLoop, hc, hs, bcLoop_done_of_sendOk ev rest hrest, List.filter_cons]
      · simp [bcLoop, hc, bcLoop_done_of_sendOk ev rest hrest, List.filter_cons]

theorem foldl_eraseKey_cons {α : Type} (c : String) (w : α) :
    ∀ (keys : List String) (subs : List (String × α)), c ∉ keys →
      List.foldl (fun s k => eraseKey s k) ((c, w) :: subs) keys =
        (c, w) :: List.foldl (fun s k => eraseKey s k) subs keys
  | [], _, _ => rfl
  | k :: ks, subs, h => by
      have hk : ¬k = c := by
        intro hkc
        exact h (by simp [hkc])
      have h2 : c ∉ ks := fun hc => h (List.mem_cons_of_mem _ hc)
      simp only [List.foldl_cons]
      rw [show eraseKey ((c, w) :: subs) k = (c, w) :: eraseKey subs k by
        simp [eraseKey, hk]]
      exact foldl_eraseKey_cons c w ks (eraseKey subs k) h2

theorem foldl_eraseKey_filter {α : Type} (P : String × α → Bool) :
    ∀ subs : List (String × α), (subs.map Prod.fst).Nodup →
      List.foldl (fun s k => eraseKey s k) subs
          ((subs.filter fun p => !(P p)).map Prod.fst)
        = subs.filter P
  | [], _ => rfl
  | (c, w) :: rest, hnd => by
      have hnd2 : (c :: List.map Prod.fst rest).Nodup := by simpa using hnd
      have hcd := List.nodup_cons.mp hnd2
      by_cases hp : P (c, w)
      · have hfe : ((c, w) :: rest).filter (fun p => !(P p)) =
            rest.filter (fun p => !(P p)) := by
          simp [List.filter_cons, hp]
        rw [hfe]
        have hnotin : c ∉ (rest.filter fun p => !(P p)).map Prod.fst := by
          intro hc
          rcases List.mem_map.mp hc with ⟨q, hq, hq1⟩
          exact hcd.1 (hq1 ▸ List.mem_map_of_mem Prod.fst (List.mem_of_mem_filter hq))
        rw [foldl_eraseKey_cons c w _ rest hnotin]
        rw [foldl_eraseKey_filter P rest hcd.2]
        simp [List.filter_cons, hp]
      · have hfe : ((c, w) :: rest).filter (fun p => !(P p)) =
            (c, w) :: rest.filter (fun p => !(P p)) := by
          simp [List.filter_cons, hp]
        rw [hfe]
        simp only [List.map_cons, List.foldl_cons]
        rw [show eraseKey ((c, w) :: rest) c = rest by simp [eraseKey]]
        rw [foldl_eraseKey_filter P rest hcd.2]
        simp [List.filter_cons, hp]

/-- Topic.broadcast when every connected subscriber's send succeeds:
the loop completes, the event is sent to exactly the connected subscribers
in order, and exactly the non-connected ones are purged. -/
theorem broadcast_ok_of_sendOk (t : Topic) (ev : ServerEventMessage)
    (hnd : (t.subscribers.map Prod.fst).Nodup)
    (h : ∀ p ∈ t.subscribers, p.2.client_state = WSState.connected → p.2.sendOk = true) :
    t.broadcast ev =
      BroadcastResult.ok
        { t with subscribers :=
            t.subscribers.filter fun p => p.2.client_state == WSState.connected }
        ((t.subscribers.filter fun p => p.2.client_state == WSState.connected).map
          fun p => (p.1, ev)) := by
  rw [Topic.broadcast, bcLoop_done_of_sendOk ev t.subscribers h]
  dsimp only
  rw [foldl_eraseKey_filter (fun p => p.2.client_state == WSState.connected) t.subscribers hnd]

/-- C1: for every registered topic, publish appends the payload to the
bounded history, increments message_count by one, sends the event frame
carrying the payload to exactly the subscribers whose connection is in
connected state (in order), purges exactly the non-connected subscribers
from the subscribers map, leaves the SubscriptionIndex unchanged and leaves
every other topic unchanged; for an absent topic it fails with
TOPIC_NOT_FOUND and changes no state. Stated under a well-formed
subscribers map and sends that do not raise. -/
theorem publish_contract :
    (∀ (m : PubSubManager) (nm : String) (p : MessagePayload) (t : Topic),
      lookupKey nm m.topics = some t →
      (t.subscribers.map Prod.fst).Nodup →
      (∀ q ∈ t.subscribers, q.2.client_state = WSState.connected → q.2.sendOk = true) →
      ∃ m', m.publish nm p = PublishResult.ok m'
          ((t.subscribers.filter fun q => q.2.client_state == WSState.connected).map
            fun q => (q.1, ⟨nm, p⟩)) ∧
        lookupKey nm m'.topics = some
          { t with
            message_history := appendCap t.message_history p,
            message_count := t.message_count + 1,
            subscribers :=
              t.subscribers.filter fun q => q.2.client_state == WSState.connected } ∧
        m'.clients = m.clients ∧
        (∀ nm', nm' ≠ nm → lookupKey nm' m'.topics = lookupKey nm' m.topics)) ∧
    (∀ (m : PubSubManager) (nm : String) (p : MessagePayload),
      lookupKey nm m.topics = none → m.publish nm p = PublishResult.notFound) := by
  constructor
  · intro m nm p t hlook hnd h
    have hb := broadcast_ok_of_sendOk
      { t with
        message_history := appendCap t.message_history p,
        message_count := t.message_count + 1 }
      ⟨nm, p⟩ (by simpa using hnd) (by simpa using h)
    refine ⟨⟨adjustKey m.topics nm (fun _ =>
      { t with
        message_history := appendCap t.message_history p,
        message_count := t.message_count + 1,
        subscribers :=
          t.subscribers.filter fun q => q.2.client_state == WSState.connected }),
      m.clients⟩, ?_, ?_, rfl, ?_⟩
    · rw [PubSubManager.publish, hlook]
      dsimp only
      rw [hb]
    · exact lookupKey_adjustKey_self _ hlook
    · intro nm' hne
      exact lookupKey_adjustKey_ne m.topics _ hne
  · intro m nm p hlook
    rw [PubSubManager.publish, hlook]

/-- Witness for publish_contract at a concrete state: the one subscriber is
not connected, so the fan-out sends nothing and purges it, while the index
keeps its entry. -/
theorem publish_contract_witness :
    ∃ m', mSubDead.publish "t" (mkPayload 0) = PublishResult.ok m' [] ∧
      lookupKey "t" m'.topics =
        some ⟨"t", [], [mkPayload 0], 1⟩ ∧
      m'.clients = mSubDead.clients := by
  obtain ⟨m', h1, h2, h3, _⟩ := publish_contract.1 mSubDead "t" (mkPayload 0)
    ⟨"t", [("c", wsDead)], [], 0⟩ (by decide) (by decide) (by decide)
  exact ⟨m', by simpa using h1, by simpa using h2, h3⟩

/-- Projecting the payload back out of the replay events recovers the
replayed history slice. -/
theorem map_message_map_event (nm : String) (l : List MessagePayload) :
    (l.map (fun p => ({ topic := nm, message := p } : ServerEventMessage))).map
      (fun e => e.message) = l := by
  induction l with
  | nil => rfl
  | cons a l ih => simp [ih]

/-- C2: subscribing with last_n = k (k nonnegative) replays exactly
min(k, |history|) events — a suffix of the history, i.e. the most recent
entries in historical order — to the connection; k = 0 replays nothing and
k beyond the history length replays the whole history. -/
theorem subscribe_replay_contract (m : PubSubManager) (nm cid : String) (ws : WebSocket)
    (t : Topic) (k : Int)
    (hlook : lookupKey nm m.topics = some t)
    (hsend : ws.sendOk = true) (hk : 0 ≤ k) :
    ∃ m' evs, m.subscribe nm cid ws (some k) = SubscribeResult.ok m' evs ∧
      t.message_history =
        t.message_history.take (t.message_history.length - k.toNat)
          ++ evs.map (fun e => e.message) ∧
      evs.length = min k.toNat t.message_history.length ∧
      (∀ e ∈ evs, e.topic = nm) ∧
      (k = 0 → evs = []) ∧
      (t.message_history.length ≤ k.toNat →
        evs.map (fun e => e.message) = t.message_history) := by
  rw [PubSubManager.subscribe, hlook]
  dsimp only
  by_cases hk0 : 0 < k
  · rw [if_pos hk0]
    simp only [hsend, Bool.or_true, if_pos]
    refine ⟨_, _, rfl, ?_, ?_, ?_, ?_, ?_⟩
    · rw [map_message_map_event]
      exact (List.take_append_drop _ _).symm
    · simp only [List.length_map, replayHist, List.length_drop]
      omega
    · intro e he
      rcases List.mem_map.mp he with ⟨q, _, hq⟩
      rw [← hq]
    · intro h0
      omega
    · intro hlen
      rw [map_message_map_event]
      simp [replayHist, Nat.sub_eq_zero_of_le hlen]
  · rw [if_neg hk0]
    have hkz : k = 0 := by omega
    subst hkz
    refine ⟨_, [], rfl, ?_, ?_, ?_, ?_, ?_⟩
    · simp
    · simp
    · intro e he
      simp at he
    · intro _
      rfl
    · intro hlen
      have : t.message_history = [] := List.eq_nil_of_length_eq_zero (by omega)
      simp [this]

/-- Witness for subscribe_replay_contract: with three history entries and
last_n = 2 exactly two events are replayed. -/
theorem subscribe_replay_contract_witness :
    ∃ m' evs, mHist.subscribe "t" "c" wsLive (some 2) = SubscribeResult.ok m' evs ∧
      evs.length = 2 := by
  obtain ⟨m', evs, h1, _, h4, _⟩ := subscribe_replay_contract mHist "t" "c" wsLive
    ⟨"t", [], [mkPayload 0, mkPayload 1, mkPayload 2], 3⟩ 2 (by decide) rfl (by decide)
  refine ⟨m', evs, h1, ?_⟩
  rw [h4]
  decide

/-- Counterexample to C5 as stated: when the client is already a
subscriber, subscribe replaces the handle in place (count unchanged) and
the following unsubscribe removes it, leaving the count one below its
prior value, not equal to it. -/
theorem sub_unsub_roundtrip_cex :
    mResub.subscribe "t" "c" wsLive (some 0) = SubscribeResult.ok mResub [] ∧
    mResub.unsubscribe "t" "c" = some mResubAfter ∧
    subCount mResub "t" = 1 ∧ subCount mResubAfter "t" = 0 := by decide

/-- C5 amended: for every broker state, registered topic and client id not
already among the topic's subscribers, subscribe(t, c, connection, 0)
followed by unsubscribe(t, c) restores the topic's subscriber count. -/
theorem sub_unsub_roundtrip (m : PubSubManager) (nm cid : String) (ws : WebSocket)
    (t : Topic) (hlook : lookupKey nm m.topics = some t)
    (hnotin : cid ∉ t.subscribers.map Prod.fst) :
    ∃ m1 m2, m.subscribe nm cid ws (some 0) = SubscribeResult.ok m1 [] ∧
      m1.unsubscribe nm cid = some m2 ∧ subCount m2 nm = subCount m nm := by
  rw [PubSubManager.subscribe, hlook]
  dsimp only
  rw [if_neg (by decide : ¬((0:Int) < 0))]
  refine ⟨_,
    ⟨adjustKey (adjustKey m.topics nm fun _ =>
        { t with subscribers := insertKey t.subscribers cid ws }) nm fun _ =>
        { t with subscribers := eraseKey (insertKey t.subscribers cid ws) cid },
      cleanClient (clientsAddTopic m.clients cid nm) cid nm⟩, rfl, ?_, ?_⟩
  · rw [PubSubManager.unsubscribe]
    dsimp only
    rw [lookupKey_adjustKey_self _ hlook]
  · rw [subCount, subCount, hlook]
    dsimp only
    rw [lookupKey_adjustKey_self _ (lookupKey_adjustKey_self _ hlook)]
    dsimp only
    rw [insertKey_of_not_mem ws hnotin, eraseKey_append_single ws hnotin]

/-- Witness for sub_unsub_roundtrip at a concrete state with one existing
unrelated subscriber. -/
theorem sub_unsub_roundtrip_witness :
    ∃ m1 m2,
      (⟨[("t", ⟨"t", [("d", wsLive)], [], 0⟩)], [("d", ["t"])]⟩ :
        PubSubManager).subscribe "t" "c" wsLive (some 0) = SubscribeResult.ok m1 [] ∧
      m1.unsubscribe "t" "c" = some m2 ∧
      subCount m2 "t" =
        subCount ⟨[("t", ⟨"t", [("d", wsLive)], [], 0⟩)], [("d", ["t"])]⟩ "t" := by
  exact sub_unsub_roundtrip _ "t" "c" wsLive ⟨"t", [("d", wsLive)], [], 0⟩
    (by decide) (by decide)

/-- Counterexample to C4 as stated: a frame with an unknown type value is
answered through the ValueError handler, so the error code on the wire is
the exception text "Unsupported message type", not "BAD_REQUEST". -/
theorem unknown_type_cex :
    dispatchRaise (some "frobnicate") = some (PyExc.valueError "Unsupported message type") ∧
    sessionCatch (PyExc.valueError "Unsupported message type") =
      some ⟨"Unsupported message type", "Operation failed"⟩ ∧
    (⟨"Unsupported message type", "Operation failed"⟩ : ErrorPayload).code ≠
      "BAD_REQUEST" := by decide

/-- C4 amended: for every frame whose type is not subscribe, unsubscribe,
publish or ping, the session responds with a ServerError frame whose error
code is "Unsupported message type" (the raised ValueError's text) and
whose message is "Operation failed". -/
theorem unknown_type_response (mt : Option String)
    (h1 : mt ≠ some "subscribe") (h2 : mt ≠ some "unsubscribe")
    (h3 : mt ≠ some "publish") (h4 : mt ≠ some "ping") :
    dispatchRaise mt = some (PyExc.valueError "Unsupported message type") ∧
    (dispatchRaise mt).map sessionCatch =
      some (some ⟨"Unsupported message type", "Operation failed"⟩) := by
  simp [dispatchRaise, h1, h2, h3, h4, sessionCatch]

/-- Witness for unknown_type_response at the concrete type value "bogus". -/
theorem unknown_type_response_witness :
    dispatchRaise (some "bogus") = some (PyExc.valueError "Unsupported message type") ∧
    (dispatchRaise (some "bogus")).map sessionCatch =
      some (some ⟨"Unsupported message type", "Operation failed"⟩) :=
  unknown_type_response (some "bogus") (by decide) (by decide) (by decide) (by decide)

/-- C9: an explicit null last_n passes schema validation as None, subscribe
on a registered topic then hits the comparison on None and raises a
TypeError (its typeError outcome), which neither session handler catches;
with an integer last_n the typeError outcome is unreachable, so subscribe
is total exactly under the precondition that last_n is an integer. -/
theorem null_last_n_reaches_type_error :
    validateLastN FieldVal.null = Except.ok none ∧
    (∀ (m : PubSubManager) (nm cid : String) (ws : WebSocket) (t : Topic),
      lookupKey nm m.topics = some t →
      ∃ m', m.subscribe nm cid ws none = SubscribeResult.typeError m') ∧
    (∀ txt, sessionCatch (PyExc.typeError txt) = none) ∧
    (∀ (m : PubSubManager) (nm cid : String) (ws : WebSocket) (k : Int)
      (m' : PubSubManager),
      m.subscribe nm cid ws (some k) ≠ SubscribeResult.typeError m') := by
  refine ⟨rfl, ?_, fun _ => rfl, ?_⟩
  · intro m nm cid ws t hlook
    rw [PubSubManager.subscribe, hlook]
    exact ⟨_, rfl⟩
  · intro m nm cid ws k m' h
    rw [PubSubManager.subscribe] at h
    cases hl : lookupKey nm m.topics with
    | none =>
        rw [hl] at h
        simp at h
    | some t =>
        rw [hl] at h
        dsimp only at h
        split_ifs at h

/-- Witness for null_last_n_reaches_type_error: the TypeError branch is
reached at a concrete state with topic "t" registered. -/
theorem null_last_n_witness :
    ∃ m', mCreated.subscribe "t" "c" wsLive none = SubscribeResult.typeError m' :=
  null_last_n_reaches_type_error.2.1 mCreated "t" "c" wsLive ⟨"t", [], [], 0⟩ (by decide)

/-! Properties of the per-client index clean-up used by unsubscribe and
delete_topic. -/

theorem cleanClient_keys_nodup {cs : List (String × List String)} (cid nm : String)
    (hkeys : (cs.map Prod.fst).Nodup) :
    ((cleanClient cs cid nm).map Prod.fst).Nodup := by
  rw [cleanClient]
  cases hl : lookupKey cid cs with
  | none => exact hkeys
  | some ss =>
      dsimp only
      by_cases he : ss.erase nm = []
      · rw [if_pos he]
        exact hkeys.sublist ((eraseKey_sublist cs cid).map Prod.fst)
      · rw [if_neg he, adjustKey_map_fst]
        exact hkeys

theorem cleanClient_vals_nodup {cs : List (String × List String)} (cid nm : String)
    (hvals : ∀ p ∈ cs, p.2.Nodup) :
    ∀ p ∈ cleanClient cs cid nm, p.2.Nodup := by
  intro p hp
  rw [cleanClient] at hp
  cases hl : lookupKey cid cs with
  | none =>
      rw [hl] at hp
      exact hvals p hp
  | some ss =>
      rw [hl] at hp
      dsimp only at hp
      by_cases he : ss.erase nm = []
      · rw [if_pos he] at hp
        exact hvals p ((eraseKey_sublist cs cid).mem hp)
      · rw [if_neg he] at hp
        rcases mem_adjustKey hp with h | ⟨v, hv, hpv⟩
        · exact hvals p h
        · have hvs : v = ss := by
            rw [hl] at hv
            exact (Option.some.inj hv).symm
          subst hvs
          rw [hpv]
          exact (hvals (cid, v) (mem_of_lookupKey hv)).erase nm

theorem cleanClient_clean {cs : List (String × List String)} (cid nm : String)
    (hkeys : (cs.map Prod.fst).Nodup) (hvals : ∀ p ∈ cs, p.2.Nodup) :
    ∀ ss', lookupKey cid (cleanClient cs cid nm) = some ss' → nm ∉ ss' := by
  intro ss' hl' hmem
  rw [cleanClient] at hl'
  cases hl : lookupKey cid cs with
  | none =>
      rw [hl] at hl'
      rw [hl'] at hl
      simp at hl
  | some ss =>
      rw [hl] at hl'
      dsimp only at hl'
      by_cases he : ss.erase nm = []
      · rw [if_pos he, lookupKey_eraseKey_self hkeys] at hl'
        cases hl'
      · rw [if_neg he, lookupKey_adjustKey_self _ hl] at hl'
        cases hl'
        have hnd : ss.Nodup := hvals (cid, ss) (mem_of_lookupKey hl)
        exact (List.Nodup.mem_erase_iff hnd).mp hmem |>.1 rfl

theorem cleanClient_preserve {cs : List (String × List String)} (cid nm d : String)
    (hkeys : (cs.map Prod.fst).Nodup) (hvals : ∀ p ∈ cs, p.2.Nodup)
    (hd : ∀ ss, lookupKey d cs = some ss → nm ∉ ss) :
    ∀ ss, lookupKey d (cleanClient cs cid nm) = some ss → nm ∉ ss := by
  by_cases hdc : d = cid
  · subst hdc
    exact cleanClient_clean d nm hkeys hvals
  · intro ss hl'
    rw [cleanClient] at hl'
    cases hl : lookupKey cid cs with
    | none =>
        rw [hl] at hl'
        exact hd ss hl'
    | some ss0 =>
        rw [hl] at hl'
        dsimp only at hl'
        by_cases he : ss0.erase nm = []
        · rw [if_pos he, lookupKey_eraseKey_ne cs hdc] at hl'
          exact hd ss hl'
        · rw [if_neg he, lookupKey_adjustKey_ne cs _ hdc] at hl'
          exact hd ss hl'

/-- The delete_topic notification loop when every connected subscriber's
send succeeds: it completes, notifies (info frame plus close code 1000)
exactly the connected subscribers in order, removes the topic name from the
index entry of every subscriber, and preserves any entry already free of
the name. -/
theorem dlLoop_done_spec (nm : String) (info : ServerInfoMessage) :
    ∀ (subs : List (String × WebSocket)) (cs : List (String × List String)),
      (cs.map Prod.fst).Nodup → (∀ p ∈ cs, p.2.Nodup) →
      (∀ q ∈ subs, q.2.client_state = WSState.connected → q.2.sendOk = true) →
      ∃ cs', dlLoop nm info subs cs = DLRes.done cs'
          ((subs.filter fun q => q.2.client_state == WSState.connected).map
            fun q => (q.1, info, 1000)) ∧
        (∀ c ∈ subs.map Prod.fst, ∀ ss, lookupKey c cs' = some ss → nm ∉ ss) ∧
        (∀ d, (∀ ss, lookupKey d cs = some ss → nm ∉ ss) →
          (∀ ss, lookupKey d cs' = some ss → nm ∉ ss))
  | [], cs, _, _, _ => ⟨cs, rfl, by simp, fun _ hd => hd⟩
  | (c, w) :: rest, cs, hkeys, hvals, hok => by
      have hkeys' := cleanClient_keys_nodup c nm hkeys
      have hvals' := cleanClient_vals_nodup c nm hvals
      have hokr := fun q hq => hok q (List.mem_cons_of_mem _ hq)
      obtain ⟨cs', heq, hclean, hpres⟩ :=
        dlLoop_done_spec nm info rest (cleanClient cs c nm) hkeys' hvals' hokr
      have hcc := cleanClient_clean c nm hkeys hvals
      have hccs : ∀ ss, lookupKey c cs' = some ss → nm ∉ ss := hpres c hcc
      have hall : ∀ x ∈ ((c, w) :: rest).map Prod.fst,
          ∀ ss, lookupKey x cs' = some ss → nm ∉ ss := by
        intro x hx
        rcases List.mem_cons.mp hx with hx | hx
        · rw [hx]
          exact hccs
        · exact hclean x hx
      have hpre2 : ∀ d, (∀ ss, lookupKey d cs = some ss → nm ∉ ss) →
          (∀ ss, lookupKey d cs' = some ss → nm ∉ ss) := by
        intro d hd
        exact hpres d (cleanClient_preserve c nm d hkeys hvals hd)
      by_cases hc : w.client_state = WSState.connected
      · have hs : w.sendOk = true := hok (c, w) (List.mem_cons_self _ _) hc
        refine ⟨cs', ?_, hall, hpre2⟩
        rw [dlLoop]
        rw [if_pos hc, if_pos hs, heq]
        simp [List.filter_cons, hc]
      · refine ⟨cs', ?_, hall, hpre2⟩
        rw [dlLoop]
        rw [if_neg hc, heq]
        simp [List.filter_cons, hc]

/-- Derivation that the stale state (dead subscriber purged by a publish
while its index entry survived) is reachable by normally-completing broker
operations. -/
theorem reachable_mStale : Reachable mStale := by
  have h1 : Step PubSubManager.initial mCreated :=
    Step.create_ok _ "t" _ (by decide)
  have h2 : Step mCreated mSubDead :=
    Step.subscribe_ok _ "t" "c" wsDead (some 0) _ [] (by decide)
  have h3 : Step mSubDead mStale :=
    Step.publish_ok _ "t" (mkPayload 0) _ [] (by decide)
  exact Reachable.step (Reachable.step (Reachable.step Reachable.init h1) h2) h3

/-- Counterexample to C3 as stated: in a reachable state, client "c" has
"t" in its index entry but is no longer in the topic's subscribers map
(a publish purged its dead connection); delete_topic then returns with the
topic gone from the registry while the index entry of "c" still contains
"t". -/
theorem delete_topic_cex :
    Reachable mStale ∧
    mStale.delete_topic "t" = DeleteResult.ok mAfterDelete [] ∧
    lookupKey "t" mAfterDelete.topics = none ∧
    lookupKey "c" mAfterDelete.clients = some ["t"] :=
  ⟨reachable_mStale, by decide, by decide, by decide⟩

/-- C3 amended: delete_topic fails with NOT_FOUND when the topic is
absent; otherwise it notifies (ServerInfo topic_deleted, then close 1000)
exactly the connected current subscribers, removes the topic from the
registry, and removes the topic name from the index entry of every client
that was in the subscribers map at deletion time (clients previously
purged from the subscribers map may retain a stale entry). Stated under
well-formed maps and sends that do not raise. -/
theorem delete_topic_contract :
    (∀ (m : PubSubManager) (nm : String) (t : Topic),
      lookupKey nm m.topics = some t →
      (m.topics.map Prod.fst).Nodup →
      (m.clients.map Prod.fst).Nodup → (∀ p ∈ m.clients, p.2.Nodup) →
      (∀ q ∈ t.subscribers, q.2.client_state = WSState.connected → q.2.sendOk = true) →
      ∃ m', m.delete_topic nm = DeleteResult.ok m'
          ((t.subscribers.filter fun q => q.2.client_state == WSState.connected).map
            fun q => (q.1, ⟨nm, "topic_deleted"⟩, 1000)) ∧
        lookupKey nm m'.topics = none ∧
        (∀ c ∈ t.subscribers.map Prod.fst,
          ∀ ss, lookupKey c m'.clients = some ss → nm ∉ ss)) ∧
    (∀ (m : PubSubManager) (nm : String),
      lookupKey nm m.topics = none → m.delete_topic nm = DeleteResult.notFound) := by
  constructor
  · intro m nm t hlook hreg hkeys hvals hok
    obtain ⟨cs', heq, hclean, _⟩ :=
      dlLoop_done_spec nm ⟨nm, "topic_deleted"⟩ t.subscribers m.clients hkeys hvals hok
    refine ⟨⟨eraseKey m.topics nm, cs'⟩, ?_, ?_, hclean⟩
    · rw [PubSubManager.delete_topic, hlook]
      dsimp only
      rw [heq]
    · exact lookupKey_eraseKey_self hreg
  · intro m nm hlook
    rw [PubSubManager.delete_topic, hlook]

/-- Witness for delete_topic_contract: deleting "t" with one live
subscriber notifies it with the info frame and close code 1000 and leaves
the registry without "t". -/
theorem delete_topic_contract_witness :
    ∃ m', mResub.delete_topic "t" =
        DeleteResult.ok m' [("c", ⟨"t", "topic_deleted"⟩, 1000)] ∧
      lookupKey "t" m'.topics = none := by
  obtain ⟨m', h1, h2, _⟩ := delete_topic_contract.1 mResub "t"
    ⟨"t", [("c", wsLive)], [], 0⟩ (by decide) (by decide) (by decide)
    (by decide) (by decide)
  exact ⟨m', by simpa using h1, h2⟩

/-! Further association-list lemmas used by the invariant proofs. -/

theorem adjustKey_of_not_mem {α : Type} {l : List (String × α)} {k : String}
    (f : α → α) (h : k ∉ l.map Prod.fst) : adjustKey l k f = l := by
  induction l with
  | nil => rfl
  | cons p rest ih =>
      obtain ⟨k', v'⟩ := p
      simp at h
      have hk : k ≠ k' := fun hkk => (h.1 (by simp [hkk])).elim
      simp [adjustKey, hk, ih (by simpa using h.2)]

theorem lookupKey_adjustKey {α : Type} (l : List (String × α)) (k : String) (f : α → α) :
    lookupKey k (adjustKey l k f) = Option.map f (lookupKey k l) := by
  cases hl : lookupKey k l with
  | none =>
      rw [adjustKey_of_not_mem f ((lookupKey_eq_none k l).mp hl), hl]
      rfl
  | some v =>
      rw [lookupKey_adjustKey_self f hl]
      rfl

theorem eraseKey_of_not_mem {α : Type} {l : List (String × α)} {k : String}
    (h : k ∉ l.map Prod.fst) : eraseKey l k = l := by
  induction l with
  | nil => rfl
  | cons p rest ih =>
      obtain ⟨k', v'⟩ := p
      simp at h
      have hk : k ≠ k' := fun hkk => (h.1 (by simp [hkk])).elim
      simp [eraseKey, hk, ih (by simpa using h.2)]

theorem mem_eraseKey_nodup {α : Type} {q : String × α} {l : List (String × α)}
    {k : String} (hnd : (l.map Prod.fst).Nodup) (h : q ∈ eraseKey l k) :
    q ∈ l ∧ q.1 ≠ k := by
  refine ⟨(eraseKey_sublist l k).mem h, ?_⟩
  intro hq
  have : lookupKey k (eraseKey l k) = none := lookupKey_eraseKey_self hnd
  have hmem : k ∈ (eraseKey l k).map Prod.fst := by
    have hq1 := List.mem_map_of_mem Prod.fst h
    rwa [hq] at hq1
  exact (lookupKey_eq_none _ _).mp this hmem

theorem insertKey_keys_of_mem {α : Type} {l : List (String × α)} {k : String}
    (v : α) (h : k ∈ l.map Prod.fst) :
    (insertKey l k v).map Prod.fst = l.map Prod.fst := by
  induction l with
  | nil => simp at h
  | cons p rest ih =>
      obtain ⟨k', v'⟩ := p
      by_cases hk : k = k'
      · simp [insertKey, hk]
      · have hmem : k ∈ rest.map Prod.fst := by
          simp at h
          rcases h with h1 | ⟨x, hx⟩
          · exact absurd h1 hk
          · exact List.mem_map.mpr ⟨(k, x), hx, rfl⟩
        simp [insertKey, hk, ih hmem]

theorem insertKey_keys_nodup {α : Type} {l : List (String × α)} {k : String}
    (v : α) (hnd : (l.map Prod.fst).Nodup) :
    ((insertKey l k v).map Prod.fst).Nodup := by
  by_cases hmem : k ∈ l.map Prod.fst
  · rw [insertKey_keys_of_mem v hmem]
    exact hnd
  · rw [insertKey_of_not_mem v hmem, List.map_append]
    rw [List.nodup_append]
    refine ⟨hnd, by simp, ?_⟩
    intro a ha hb
    simp at hb
    subst hb
    exact hmem ha

theorem foldl_eraseKey_sublist {α : Type} :
    ∀ (keys : List String) (l : List (String × α)),
      (List.foldl (fun s k => eraseKey s k) l keys).Sublist l
  | [], _ => List.Sublist.refl _
  | k :: ks, l => by
      simp only [List.foldl_cons]
      exact (foldl_eraseKey_sublist ks (eraseKey l k)).trans (eraseKey_sublist l k)

theorem appendCap_length_le {h : List MessagePayload} (p : MessagePayload)
    (hle : h.length ≤ 100) : (appendCap h p).length ≤ 100 := by
  rw [appendCap]
  by_cases hlt : h.length < 100
  · rw [if_pos hlt]
    simp
    omega
  · rw [if_neg hlt]
    simp
    omega

theorem cleanClient_lookup_other {cs : List (String × List String)} {cid d : String}
    (nm : String) (hdc : d ≠ cid) :
    lookupKey d (cleanClient cs cid nm) = lookupKey d cs := by
  rw [cleanClient]
  cases hl : lookupKey cid cs with
  | none => rfl
  | some ss =>
      dsimp only
      by_cases he : ss.erase nm = []
      · rw [if_pos he]
        exact lookupKey_eraseKey_ne cs hdc
      · rw [if_neg he]
        exact lookupKey_adjustKey_ne cs _ hdc

theorem cleanClient_mem_preserve {cs : List (String × List String)}
    {cid nm d x : String} (hx : x ≠ nm)
    (h : ∃ ss, lookupKey d cs = some ss ∧ x ∈ ss) :
    ∃ ss', lookupKey d (cleanClient cs cid nm) = some ss' ∧ x ∈ ss' := by
  obtain ⟨ss, hss, hxss⟩ := h
  by_cases hdc : d = cid
  · subst hdc
    rw [cleanClient, hss]
    dsimp only
    have hxe : x ∈ ss.erase nm := (List.mem_erase_of_ne hx).mpr hxss
    have hne : ss.erase nm ≠ [] := List.ne_nil_of_mem hxe
    rw [if_neg hne]
    exact ⟨ss.erase nm, lookupKey_adjustKey_self _ hss, hxe⟩
  · rw [cleanClient_lookup_other nm hdc]
    exact ⟨ss, hss, hxss⟩

theorem clientsAddTopic_lookup_other {cs : List (String × List String)}
    {cid d : String} (nm : String) (hdc : d ≠ cid) :
    lookupKey d (clientsAddTopic cs cid nm) = lookupKey d cs := by
  rw [clientsAddTopic]
  cases hl : lookupKey cid cs with
  | none =>
      dsimp only
      rw [lookupKey_append]
      cases hd : lookupKey d cs with
      | none => simp [lookupKey, hdc]
      | some ss => rfl
  | some ss => exact lookupKey_adjustKey_ne cs _ hdc

theorem clientsAddTopic_self_mem (cs : List (String × List String)) (cid nm : String) :
    ∃ ss', lookupKey cid (clientsAddTopic cs cid nm) = some ss' ∧ nm ∈ ss' := by
  rw [clientsAddTopic]
  cases hl : lookupKey cid cs with
  | none =>
      dsimp only
      refine ⟨[nm], ?_, by simp⟩
      rw [lookupKey_append, hl]
      simp [lookupKey]
  | some ss =>
      exact ⟨setAdd ss nm, lookupKey_adjustKey_self _ hl, mem_setAdd_self ss nm⟩

theorem clientsAddTopic_mem_preserve {cs : List (String × List String)}
    {cid nm d x : String}
    (h : ∃ ss, lookupKey d cs = some ss ∧ x ∈ ss) :
    ∃ ss', lookupKey d (clientsAddTopic cs cid nm) = some ss' ∧ x ∈ ss' := by
  obtain ⟨ss, hss, hxss⟩ := h
  by_cases hdc : d = cid
  · subst hdc
    rw [clientsAddTopic, hss]
    exact ⟨setAdd ss nm, lookupKey_adjustKey_self _ hss, mem_setAdd_of_mem nm hxss⟩
  · rw [clientsAddTopic_lookup_other nm hdc]
    exact ⟨ss, hss, hxss⟩

theorem dlLoop_mem_preserve (nm : String) (info : ServerInfoMessage) :
    ∀ (subs : List (String × WebSocket)) (cs cs' : List (String × List String))
      (nts : List (String × ServerInfoMessage × Nat)),
      dlLoop nm info subs cs = DLRes.done cs' nts →
      ∀ d x, x ≠ nm → (∃ ss, lookupKey d cs = some ss ∧ x ∈ ss) →
        ∃ ss', lookupKey d cs' = some ss' ∧ x ∈ ss'
  | [], cs, cs', nts, heq, d, x, hx, h => by
      rw [dlLoop] at heq
      cases heq
      exact h
  | (c, w) :: rest, cs, cs', nts, heq, d, x, hx, h => by
      rw [dlLoop] at heq
      by_cases hc : w.client_state = WSState.connected
      · rw [if_pos hc] at heq
        by_cases hs : w.sendOk = true
        · rw [if_pos hs] at heq
          cases hrec : dlLoop nm info rest (cleanClient cs c nm) with
          | done cs2 nts2 =>
              rw [hrec] at heq
              dsimp only at heq
              cases heq
              exact dlLoop_mem_preserve nm info rest _ _ _ hrec d x hx
                (cleanClient_mem_preserve hx h)
          | failed cs2 nts2 =>
              rw [hrec] at heq
              simp at heq
        · rw [if_neg hs] at heq
          simp at heq
      · rw [if_neg hc] at heq
        cases hrec : dlLoop nm info rest (cleanClient cs c nm) with
        | done cs2 nts2 =>
            rw [hrec] at heq
            dsimp only at heq
            cases heq
            exact dlLoop_mem_preserve nm info rest _ _ _ hrec d x hx
              (cleanClient_mem_preserve hx h)
        | failed cs2 nts2 =>
            rw [hrec] at heq
            simp at heq

/-! Inversion lemmas recovering the state shape from a successful
operation. -/

theorem create_some_inv {m : PubSubManager} {nm : String} {m' : PubSubManager}
    (h : m.create_topic nm = some m') :
    lookupKey nm m.topics = none ∧
      m' = { m with topics := m.topics ++ [(nm, ⟨nm, [], [], 0⟩)] } := by
  rw [PubSubManager.create_topic] at h
  cases hl : lookupKey nm m.topics with
  | some t =>
      rw [hl] at h
      cases h
  | none =>
      rw [hl] at h
      cases h
      exact ⟨rfl, rfl⟩

theorem subscribe_ok_inv {m : PubSubManager} {nm cid : String} {ws : WebSocket}
    {ln : Option Int} {m' : PubSubManager} {evs : List ServerEventMessage}
    (h : m.subscribe nm cid ws ln = SubscribeResult.ok m' evs) :
    ∃ t, lookupKey nm m.topics = some t ∧
      m' = ⟨adjustKey m.topics nm (fun _ =>
          { t with subscribers := insertKey t.subscribers cid ws }),
        clientsAddTopic m.clients cid nm⟩ := by
  rw [PubSubManager.subscribe] at h
  cases hl : lookupKey nm m.topics with
  | none =>
      rw [hl] at h
      simp at h
  | some t =>
      rw [hl] at h
      dsimp only at h
      refine ⟨t, rfl, ?_⟩
      cases ln with
      | none => simp at h
      | some k =>
          dsimp only at h
          split_ifs at h
          all_goals cases h
          all_goals rfl

theorem unsubscribe_some_inv {m : PubSubManager} {nm cid : String} {m' : PubSubManager}
    (h : m.unsubscribe nm cid = some m') :
    ∃ t, lookupKey nm m.topics = some t ∧
      m' = ⟨adjustKey m.topics nm (fun _ =>
          { t with subscribers := eraseKey t.subscribers cid }),
        cleanClient m.clients cid nm⟩ := by
  rw [PubSubManager.unsubscribe] at h
  cases hl : lookupKey nm m.topics with
  | none =>
      rw [hl] at h
      cases h
  | some t =>
      rw [hl] at h
      dsimp only at h
      cases h
      exact ⟨t, rfl, rfl⟩

theorem broadcast_ok_inv {t : Topic} {ev : ServerEventMessage} {t2 : Topic}
    {sent : List (String × ServerEventMessage)}
    (h : t.broadcast ev = BroadcastResult.ok t2 sent) :
    ∃ disc,
      t2 = { t with subscribers := List.foldl (fun s k => eraseKey s k) t.subscribers disc } := by
  rw [Topic.broadcast] at h
  cases hbc : bcLoop ev t.subscribers with
  | done s d =>
      rw [hbc] at h
      dsimp only at h
      injection h with h1 h2
      exact ⟨d, h1.symm⟩
  | failed s =>
      rw [hbc] at h
      cases h

theorem publish_ok_inv {m : PubSubManager} {nm : String} {p : MessagePayload}
    {m' : PubSubManager} {sent : List (String × ServerEventMessage)}
    (h : m.publish nm p = PublishResult.ok m' sent) :
    ∃ t disc, lookupKey nm m.topics = some t ∧
      m' = ⟨adjustKey m.topics nm (fun _ =>
        { t with
          message_history := appendCap t.message_history p,
          message_count := t.message_count + 1,
          subscribers := List.foldl (fun s k => eraseKey s k) t.subscribers disc }),
        m.clients⟩ := by
  rw [PubSubManager.publish] at h
  cases hl : lookupKey nm m.topics with
  | none =>
      rw [hl] at h
      cases h
  | some t =>
      rw [hl] at h
      dsimp only at h
      cases hbc : Topic.broadcast
          { t with
            message_history := appendCap t.message_history p,
            message_count := t.message_count + 1 } ⟨nm, p⟩ with
      | ok t2 s2 =>
          rw [hbc] at h
          dsimp only at h
          cases h
          obtain ⟨disc, hd⟩ := broadcast_ok_inv hbc
          exact ⟨t, disc, rfl, by rw [hd]⟩
      | failed s2 =>
          rw [hbc] at h
          cases h

theorem delete_ok_inv {m : PubSubManager} {nm : String} {m' : PubSubManager}
    {nts : List (String × ServerInfoMessage × Nat)}
    (h : m.delete_topic nm = DeleteResult.ok m' nts) :
    ∃ t cs', lookupKey nm m.topics = some t ∧
      dlLoop nm ⟨nm, "topic_deleted"⟩ t.subscribers m.clients = DLRes.done cs' nts ∧
      m' = ⟨eraseKey m.topics nm, cs'⟩ := by
  rw [PubSubManager.delete_topic] at h
  cases hl : lookupKey nm m.topics with
  | none =>
      rw [hl] at h
      cases h
  | some t =>
      rw [hl] at h
      dsimp only at h
      cases hdl : dlLoop nm ⟨nm, "topic_deleted"⟩ t.subscribers m.clients with
      | done cs nts0 =>
          rw [hdl] at h
          dsimp only at h
          cases h
          exact ⟨t, cs, rfl, hdl, rfl⟩
      | failed cs nts0 =>
          rw [hdl] at h
          cases h

/-! Characterizations of the fold performed by disconnect_client. -/

theorem foldl_adjust_map_fst (cid : String) :
    ∀ (ss : List String) (ts : List (String × Topic)),
      (List.foldl (fun ts0 nm =>
        adjustKey ts0 nm (fun t => { t with subscribers := eraseKey t.subscribers cid }))
        ts ss).map Prod.fst = ts.map Prod.fst
  | [], _ => rfl
  | nm :: rest, ts => by
      simp only [List.foldl_cons]
      rw [foldl_adjust_map_fst cid rest _, adjustKey_map_fst]

theorem adjustKey_map_proj {α β : Type} (l : List (String × α)) (k : String)
    (f : α → α) (g : String × α → β) (hg : ∀ k' v, g (k', f v) = g (k', v)) :
    (adjustKey l k f).map g = l.map g := by
  induction l with
  | nil => rfl
  | cons p rest ih =>
      obtain ⟨k', v'⟩ := p
      by_cases hk : k = k'
      · subst hk
        simp [adjustKey, hg]
      · simp [adjustKey, hk, ih]

theorem foldl_adjust_map_proj (cid : String) :
    ∀ (ss : List String) (ts : List (String × Topic)),
      (List.foldl (fun ts0 nm =>
        adjustKey ts0 nm (fun t => { t with subscribers := eraseKey t.subscribers cid }))
        ts ss).map (fun p => (p.1, p.2.name, p.2.message_history, p.2.message_count))
      = ts.map (fun p => (p.1, p.2.name, p.2.message_history, p.2.message_count))
  | [], _ => rfl
  | nm :: rest, ts => by
      simp only [List.foldl_cons]
      rw [foldl_adjust_map_proj cid rest _,
        adjustKey_map_proj ts nm
          (fun t => { t with subscribers := eraseKey t.subscribers cid })
          (fun p => (p.1, p.2.name, p.2.message_history, p.2.message_count))
          (fun _ _ => rfl)]

theorem foldl_adjust_lookup_notin (cid : String) :
    ∀ (ss : List String) (ts : List (String × Topic)) (nm' : String), nm' ∉ ss →
      lookupKey nm' (List.foldl (fun ts0 nm =>
        adjustKey ts0 nm (fun t => { t with subscribers := eraseKey t.subscribers cid }))
        ts ss) = lookupKey nm' ts
  | [], _, _, _ => rfl
  | nm :: rest, ts, nm', h => by
      simp only [List.foldl_cons]
      have hne : nm' ≠ nm := fun he => h (by simp [he])
      rw [foldl_adjust_lookup_notin cid rest _ nm'
        (fun hc => h (List.mem_cons_of_mem _ hc)), lookupKey_adjustKey_ne _ _ hne]

theorem foldl_adjust_spec (cid : String) :
    ∀ (ss : List String) (ts : List (String × Topic)) (nm' : String) (t' : Topic),
      lookupKey nm' (List.foldl (fun ts0 nm =>
        adjustKey ts0 nm (fun t => { t with subscribers := eraseKey t.subscribers cid }))
        ts ss) = some t' →
      ∃ t0, lookupKey nm' ts = some t0 ∧
        t'.subscribers.Sublist t0.subscribers ∧
        t'.message_history = t0.message_history ∧
        t'.message_count = t0.message_count ∧
        (nm' ∈ ss → (t0.subscribers.map Prod.fst).Nodup →
          cid ∉ t'.subscribers.map Prod.fst)
  | [], ts, nm', t', h => ⟨t', h, List.Sublist.refl _, rfl, rfl, by simp⟩
  | nm :: rest, ts, nm', t', h => by
      simp only [List.foldl_cons] at h
      obtain ⟨t1, h1, hsub, hh, hc, himp⟩ := foldl_adjust_spec cid rest _ nm' t' h
      by_cases hn : nm' = nm
      · subst hn
        rw [lookupKey_adjustKey] at h1
        cases hl : lookupKey nm' ts with
        | none =>
            rw [hl] at h1
            cases h1
        | some t0 =>
            rw [hl] at h1
            simp only [Option.map_some'] at h1
            have ht1 : t1 = { t0 with subscribers := eraseKey t0.subscribers cid } :=
              (Option.some.inj h1).symm
            refine ⟨t0, rfl, ?_, ?_, ?_, ?_⟩
            · rw [ht1] at hsub
              exact hsub.trans (eraseKey_sublist t0.subscribers cid)
            · rw [hh, ht1]
            · rw [hc, ht1]
            · intro _ hnd hmem
              have hnone : cid ∉ t1.subscribers.map Prod.fst := by
                rw [ht1]
                exact (lookupKey_eq_none _ _).mp (lookupKey_eraseKey_self hnd)
              exact hnone ((hsub.map Prod.fst).subset hmem)
      · rw [lookupKey_adjustKey_ne _ _ hn] at h1
        refine ⟨t1, h1, hsub, hh, hc, ?_⟩
        intro hmm hnd
        rcases List.mem_cons.mp hmm with he | he
        · exact absurd he hn
        · exact himp he hnd

/-- Every normally-completing broker operation preserves the
well-formedness invariant. -/
theorem goodState_step {m m' : PubSubManager} (hg : GoodState m) (hs : Step m m') :
    GoodState m' := by
  cases hs with
  | create_ok nm _ h =>
      obtain ⟨hl, hm'⟩ := create_some_inv h
      subst hm'
      refine ⟨?_, ?_⟩
      · rw [List.map_append, List.nodup_append]
        refine ⟨hg.1, by simp, ?_⟩
        intro a ha hb
        simp at hb
        subst hb
        exact (lookupKey_eq_none _ _).mp hl ha
      · intro nm' t' hl'
        rw [lookupKey_append] at hl'
        cases h1 : lookupKey nm' m.topics with
        | some t0 =>
            rw [h1] at hl'
            dsimp only at hl'
            cases hl'
            exact hg.2 nm' t' h1
        | none =>
            rw [h1] at hl'
            dsimp only at hl'
            rw [lookupKey] at hl'
            by_cases he : nm' = nm
            · rw [if_pos he] at hl'
              cases hl'
              exact ⟨by simp, by simp, by simp⟩
            · rw [if_neg he] at hl'
              rw [lookupKey] at hl'
              cases hl'
  | subscribe_ok nm cid ws ln _ evs h =>
      obtain ⟨t, hl, hm'⟩ := subscribe_ok_inv h
      subst hm'
      obtain ⟨hnd0, hlen0, hinv0⟩ := hg.2 nm t hl
      refine ⟨by rw [adjustKey_map_fst]; exact hg.1, ?_⟩
      intro nm' t' hl'
      by_cases hn : nm' = nm
      · subst hn
        rw [lookupKey_adjustKey, hl] at hl'
        simp only [Option.map_some'] at hl'
        cases hl'
        refine ⟨insertKey_keys_nodup ws hnd0, hlen0, ?_⟩
        intro q hq
        rcases mem_insertKey hq with hq1 | hq1
        · exact clientsAddTopic_mem_preserve (hinv0 q hq1)
        · subst hq1
          exact clientsAddTopic_self_mem m.clients cid nm'
      · rw [lookupKey_adjustKey_ne _ _ hn] at hl'
        obtain ⟨a, b, c⟩ := hg.2 nm' t' hl'
        refine ⟨a, b, ?_⟩
        intro q hq
        exact clientsAddTopic_mem_preserve (c q hq)
  | unsubscribe_ok nm cid _ h =>
      obtain ⟨t, hl, hm'⟩ := unsubscribe_some_inv h
      subst hm'
      obtain ⟨hnd0, hlen0, hinv0⟩ := hg.2 nm t hl
      refine ⟨by rw [adjustKey_map_fst]; exact hg.1, ?_⟩
      intro nm' t' hl'
      by_cases hn : nm' = nm
      · subst hn
        rw [lookupKey_adjustKey, hl] at hl'
        simp only [Option.map_some'] at hl'
        cases hl'
        refine ⟨hnd0.sublist ((eraseKey_sublist _ _).map Prod.fst), hlen0, ?_⟩
        intro q hq
        obtain ⟨hqmem, hqne⟩ := mem_eraseKey_nodup hnd0 hq
        obtain ⟨ss, hss, hmem⟩ := hinv0 q hqmem
        rw [cleanClient_lookup_other nm' hqne]
        exact ⟨ss, hss, hmem⟩
      · rw [lookupKey_adjustKey_ne _ _ hn] at hl'
        obtain ⟨a, b, c⟩ := hg.2 nm' t' hl'
        refine ⟨a, b, ?_⟩
        intro q hq
        exact cleanClient_mem_preserve hn (c q hq)
  | publish_ok nm p _ sent h =>
      obtain ⟨t, disc, hl, hm'⟩ := publish_ok_inv h
      subst hm'
      obtain ⟨hnd0, hlen0, hinv0⟩ := hg.2 nm t hl
      refine ⟨by rw [adjustKey_map_fst]; exact hg.1, ?_⟩
      intro nm' t' hl'
      by_cases hn : nm' = nm
      · subst hn
        rw [lookupKey_adjustKey, hl] at hl'
        simp only [Option.map_some'] at hl'
        cases hl'
        refine ⟨hnd0.sublist ((foldl_eraseKey_sublist disc t.subscribers).map Prod.fst),
          appendCap_length_le p hlen0, ?_⟩
        intro q hq
        exact hinv0 q ((foldl_eraseKey_sublist disc t.subscribers).mem hq)
      · rw [lookupKey_adjustKey_ne _ _ hn] at hl'
        exact hg.2 nm' t' hl'
  | delete_ok nm _ nts h =>
      obtain ⟨t, cs', hl, hdl, hm'⟩ := delete_ok_inv h
      subst hm'
      refine ⟨hg.1.sublist ((eraseKey_sublist _ _).map Prod.fst), ?_⟩
      intro nm' t' hl'
      by_cases hn : nm' = nm
      · subst hn
        rw [lookupKey_eraseKey_self hg.1] at hl'
        cases hl'
      · rw [lookupKey_eraseKey_ne _ hn] at hl'
        obtain ⟨a, b, c⟩ := hg.2 nm' t' hl'
        refine ⟨a, b, ?_⟩
        intro q hq
        exact dlLoop_mem_preserve nm ⟨nm, "topic_deleted"⟩ t.subscribers m.clients cs'
          nts hdl q.1 nm' hn (c q hq)
  | disconnect cid =>
      rw [PubSubManager.disconnect_client]
      cases hl : lookupKey cid m.clients with
      | none => exact hg
      | some ss =>
          dsimp only
          refine ⟨by rw [foldl_adjust_map_fst]; exact hg.1, ?_⟩
          intro nm' t' hl'
          obtain ⟨t0, h0, hsub, hh, hc, himp⟩ := foldl_adjust_spec cid ss m.topics nm' t' hl'
          obtain ⟨hnd0, hlen0, hinv0⟩ := hg.2 nm' t0 h0
          refine ⟨hnd0.sublist (hsub.map Prod.fst), by rw [hh]; exact hlen0, ?_⟩
          intro q hq
          have hq0 : q ∈ t0.subscribers := hsub.mem hq
          obtain ⟨ss1, hss1, hmem1⟩ := hinv0 q hq0
          by_cases hqc : q.1 = cid
          · rw [hqc, hl] at hss1
            cases hss1
            have hnotin : cid ∉ t'.subscribers.map Prod.fst := himp hmem1 hnd0
            exact absurd (by rw [← hqc]; exact List.mem_map_of_mem Prod.fst hq) hnotin
          · rw [lookupKey_eraseKey_ne _ hqc]
            exact ⟨ss1, hss1, hmem1⟩

/-- Every reachable broker state is well-formed. -/
theorem goodState_reachable {m : PubSubManager} (h : Reachable m) : GoodState m := by
  induction h with
  | init =>
      refine ⟨by simp [PubSubManager.initial], ?_⟩
      intro nm t hl
      simp [PubSubManager.initial, lookupKey] at hl
  | step _ hs ih => exact goodState_step ih hs

/-- The state with one dead-connection subscriber is reachable. -/
theorem reachable_mSubDead : Reachable mSubDead := by
  have h1 : Step PubSubManager.initial mCreated :=
    Step.create_ok _ "t" _ (by decide)
  have h2 : Step mCreated mSubDead :=
    Step.subscribe_ok _ "t" "c" wsDead (some 0) _ [] (by decide)
  exact Reachable.step (Reachable.step Reachable.init h1) h2

/-- Counterexample to C6 as stated: in a reachable state with no operation
in flight, client "c" still has a SubscriptionIndex entry although no
topic's subscribers map contains it (its dead connection was purged by a
publish fan-out, which does not clean the index). -/
theorem index_iff_cex :
    Reachable mStale ∧
    lookupKey "c" mStale.clients = some ["t"] ∧
    mStale.topics.map (fun p => p.2.subscribers) = [[]] :=
  ⟨reachable_mStale, by decide, by decide⟩

/-- C6 amended: in every reachable state, any client id contained in some
topic's subscribers map has a SubscriptionIndex entry containing that
topic's name; the converse inclusion fails, since a publish fan-out purges
non-connected subscribers from the subscribers map without touching the
index. -/
theorem index_inclusion {m : PubSubManager} (hm : Reachable m) :
    ∀ nm t, lookupKey nm m.topics = some t → ∀ q ∈ t.subscribers,
      ∃ ss, lookupKey q.1 m.clients = some ss ∧ nm ∈ ss :=
  fun nm t hl q hq => ((goodState_reachable hm).2 nm t hl).2.2 q hq

/-- Witness for index_inclusion: in the reachable state where "c"
subscribed to "t", its index entry contains "t". -/
theorem index_inclusion_witness :
    ∃ ss, lookupKey "c" mSubDead.clients = some ss ∧ "t" ∈ ss :=
  index_inclusion reachable_mSubDead "t" ⟨"t", [("c", wsDead)], [], 0⟩
    (by decide) ("c", wsDead) (by decide)

/-- C7 at the failing input: with subscriber "a" connected but raising on
send and subscriber "b" connected and healthy, publish raises out of the
fan-out: the result is the sendFailed outcome with an empty sent list (so
"b" receives nothing), and "a" is still in the subscribers map (no purge
happened) — the failure is not absorbed as the claim states. -/
theorem send_failure_not_absorbed :
    mBroken.publish "t" (mkPayload 0) = PublishResult.sendFailed mBrokenAfter [] ∧
    lookupKey "t" mBrokenAfter.topics =
      some ⟨"t", [("a", wsBroken), ("b", wsLive)], [mkPayload 0], 1⟩ := by decide

/-- C8: every reachable state keeps every topic's history within 100
entries, and publishing 101 messages into a fresh topic leaves exactly the
last 100 payloads, in order. -/
theorem history_bound :
    (∀ m, Reachable m → ∀ p ∈ m.topics, p.2.message_history.length ≤ 100) ∧
    (publishSeq mCreated "t" ((List.range 101).map mkPayload)).topics.map
        (fun p => p.2.message_history) =
      [((List.range 101).map mkPayload).drop 1] := by
  constructor
  · intro m hm p hp
    have hg := goodState_reachable hm
    have hl : lookupKey p.1 m.topics = some p.2 :=
      lookupKey_of_mem_nodup hg.1 (by simpa using hp)
    exact (hg.2 p.1 p.2 hl).2.1
  · decide

/-- Witness for history_bound: the bound evaluated in the reachable stale
state. -/
theorem history_bound_witness :
    (⟨"t", [], [mkPayload 0], 1⟩ : Topic).message_history.length ≤ 100 :=
  history_bound.1 mStale reachable_mStale ("t", ⟨"t", [], [mkPayload 0], 1⟩) (by decide)

/-- C10: disconnect_client changes no topic's identity, history or
message count (only subscribers maps can change), leaves every topic whose
name is not in the client's index entry entirely unchanged, and leaves
every other client's index entry unchanged. -/
theorem disconnect_frame_contract (m : PubSubManager) (cid : String) :
    ((m.disconnect_client cid).topics.map
        (fun p => (p.1, p.2.name, p.2.message_history, p.2.message_count)) =
      m.topics.map (fun p => (p.1, p.2.name, p.2.message_history, p.2.message_count))) ∧
    (∀ nm, nm ∉ (lookupKey cid m.clients).getD [] →
      lookupKey nm (m.disconnect_client cid).topics = lookupKey nm m.topics) ∧
    (∀ d, d ≠ cid →
      lookupKey d (m.disconnect_client cid).clients = lookupKey d m.clients) := by
  rw [PubSubManager.disconnect_client]
  cases hl : lookupKey cid m.clients with
  | none => exact ⟨rfl, fun _ _ => rfl, fun _ _ => rfl⟩
  | some ss =>
      dsimp only
      refine ⟨foldl_adjust_map_proj cid ss m.topics, ?_, ?_⟩
      · intro nm hnm
        exact foldl_adjust_lookup_notin cid ss m.topics nm (by simpa using hnm)
      · intro d hd
        exact lookupKey_eraseKey_ne m.clients hd

/-- Witness for disconnect_frame_contract: disconnecting an unrelated
client id in the stale state leaves the entry of "c" unchanged. -/
theorem disconnect_frame_contract_witness :
    lookupKey "c" ((mStale.disconnect_client "zz").clients) =
      lookupKey "c" mStale.clients :=
  (disconnect_frame_contract mStale "zz").2.2 "c" (by decide)
